import Mathlib

/-!
Verification of the Shadow-Code dependency-graph engine.

The development shallowly embeds:
* the workflow (fan-in closure) query of the frontend page
  (`WorkflowPage.workflowGraph`): reverse-adjacency BFS over the cached
  graph, then filtering of nodes and edges to the visited closure;
* the node-rendering default of the graph component (`Graph.tsx`):
  a node whose id has no analysis entry, or whose entry has no
  classification, is displayed as `GREEN`;
* the graph builder and risk scorer (`graph_builder.py`,
  `risk_analyzer.py`), which are referenced by the repository's build
  scripts and READMEs but whose sources are not present; these are
  modelled from the specification.
-/

namespace ShadowCode

/-- A directed dependency edge, `from → to`, read "`from` depends on `to`". -/
structure GraphEdge where
  «from» : String
  «to» : String
  deriving DecidableEq

/-- A graph node.  The source attaches further display fields; the engine
only ever reads `id`, `filePath` and the builder-computed `inCycle` flag. -/
structure GraphNode where
  id : String
  filePath : String
  inCycle : Bool
  deriving DecidableEq

/-- The full dependency graph: node collection plus edge collection. -/
structure FullGraph where
  nodes : List GraphNode
  edges : List GraphEdge
  deriving DecidableEq

/-! ### Generic BFS over an adjacency function

`WorkflowPage.workflowGraph` runs a BFS over the reverse adjacency map;
the builder's cycle detection needs the forward closure as well, so the
BFS is stated once over an arbitrary adjacency function. -/

/-- State of the BFS loop: the `visited` set (a list, insertion order),
the pending `queue`, and the trace of ids dequeued so far. -/
structure BfsState where
  visited : List String
  queue : List String
  dequeued : List String
  deriving DecidableEq

/-- Process one dependents list: each id not yet visited is appended to
both the visited set and the queue (the source checks `visited.has`
before `visited.add` and `queue.push`). -/
def enqueueDeps (deps : List String) (vq : List String × List String) :
    List String × List String :=
  deps.foldl
    (fun p d => if d ∈ p.1 then p else (p.1 ++ [d], p.2 ++ [d]))
    vq

/-- One iteration of the BFS `while` loop: dequeue the head of the queue
(`queue.shift()`), then enqueue its unvisited adjacent ids.  On an empty
queue the state is returned unchanged. -/
def bfsStep (adj : String → List String) (s : BfsState) : BfsState :=
  match s.queue with
  | [] => s
  | cur :: rest =>
    let p := enqueueDeps (adj cur) (s.visited, rest)
    { visited := p.1, queue := p.2, dequeued := s.dequeued ++ [cur] }

/-- Run the BFS loop for `fuel` iterations; `fuel` is chosen large enough
that the queue is provably empty afterwards. -/
def bfsRun (adj : String → List String) : Nat → BfsState → BfsState
  | 0, s => s
  | n + 1, s => bfsRun adj n (bfsStep adj s)

/-- Reverse adjacency of the graph: the `from` endpoints of the edges
into `cur`.  The source stores these per `to`-key in a `Set`; duplicates
in this list are harmless because the BFS checks `visited` before each
enqueue. -/
def revAdj (g : FullGraph) (cur : String) : List String :=
  (g.edges.filter (fun e => e.«to» == cur)).map (fun e => e.«from»)

/-- Forward adjacency: the `to` endpoints of the edges out of `cur`. -/
def fwdAdj (edges : List GraphEdge) (cur : String) : List String :=
  (edges.filter (fun e => e.«from» == cur)).map (fun e => e.«to»)

/-- The fan-in closure of `nodeId`: the visited set of the reverse BFS
started from `nodeId` (`fanInNodes` in the source).  The fuel
`edges.length + 1` dominates the loop's decreasing measure. -/
def fanInNodes (g : FullGraph) (nodeId : String) : List String :=
  (bfsRun (revAdj g) (g.edges.length + 1)
    { visited := [nodeId], queue := [nodeId], dequeued := [] }).visited

/-- The workflow (fan-in closure) query of `WorkflowPage.workflowGraph`:
the original node and edge collections filtered to the fan-in closure of
`nodeId` (both edge endpoints must lie in the closure). -/
def workflowGraph (g : FullGraph) (nodeId : String) : FullGraph :=
  { nodes := g.nodes.filter (fun n => decide (n.id ∈ fanInNodes g nodeId))
    edges := g.edges.filter (fun e =>
      decide (e.«from» ∈ fanInNodes g nodeId) &&
      decide (e.«to» ∈ fanInNodes g nodeId)) }

/-- Reachability along an adjacency function: `Reach adj t x` holds when
`x = t` or some chain `x ∈ adj x₁, x₁ ∈ adj x₂, …` ends at `t`.  With
`adj = revAdj g` this says the target `t` is reachable from `x` by
following edges forward, i.e. `x` transitively depends on `t`. -/
inductive Reach (adj : String → List String) (t : String) : String → Prop
  | refl : Reach adj t t
  | step {x y : String} : Reach adj t x → y ∈ adj x → Reach adj t y

/-- The 4-node diamond fixture of the specification:
edges B→A, C→A, D→B, D→C. -/
def diamond : FullGraph :=
  { nodes := [⟨"A", "A.java", false⟩, ⟨"B", "B.java", false⟩,
              ⟨"C", "C.java", false⟩, ⟨"D", "D.java", false⟩]
    edges := [⟨"B", "A"⟩, ⟨"C", "A"⟩, ⟨"D", "B"⟩, ⟨"D", "C"⟩] }

/-! ### Graph rendering (frontend `Graph.tsx`) -/

/-- The slice of an analysis entry consumed by the rendering component:
only the (optional) classification string is read. -/
structure AnalysisDisplay where
  classification : Option String
  deriving DecidableEq

/-- The classification attached to a rendered node:
`analysis[node.id]?.classification || "GREEN"`.  The `||` falls back to
`"GREEN"` on a missing analysis entry, a missing classification field,
and on the falsy empty string. -/
def displayClassification (analysis : String → Option AnalysisDisplay)
    (nodeId : String) : String :=
  match analysis nodeId with
  | none => "GREEN"
  | some a =>
    match a.classification with
    | none => "GREEN"
    | some c => if c = "" then "GREEN" else c

/-- The node data prepared by the rendering component: each graph node is
paired with its display classification (`graph.nodes.map(...)`). -/
def renderNodes (g : FullGraph) (analysis : String → Option AnalysisDisplay) :
    List (String × String) :=
  g.nodes.map (fun n => (n.id, displayClassification analysis n.id))

/-! ### Graph builder and risk scorer

The repository runs `graph_builder.py` and `risk_analyzer.py` on the
backend; those two files are not present in the tree, so the definitions
below are modelled from the specification (§4.1, §4.2). -/

/-- Modelled from the spec: the per-file structural facts supplied by the
extraction front-end (`FileRecord`), restricted to the fields the graph
builder and risk scorer consume. -/
structure FileRecord where
  filePath : String
  packageName : String
  imports : List String
  classNames : List String
  lineCount : Nat
  methodCount : Nat
  readsFromDb : Bool
  writesToDb : Bool
  hasInheritance : Bool
  usesReflection : Bool
  usesThreading : Bool
  usesGenerics : Bool
  deriving DecidableEq

/-- Modelled from the spec: the stable node id assigned to the file at
position `i` of the record collection (`file_<index>`). -/
def nodeIdOf (i : Nat) : String := "file_" ++ toString i

/-- Modelled from the spec: the fully-qualified name of a class of a
record (`package.Class`, or the bare class name when no package is
declared). -/
def fqn (r : FileRecord) (c : String) : String :=
  if r.packageName = "" then c else r.packageName ++ "." ++ c

/-- Modelled from the spec: the trailing simple-name component of an
imported fully-qualified name. -/
def simpleName (imp : String) : String := (imp.splitOn (".")).getLastD imp

/-- Modelled from the spec: resolve an import string against the record
collection — exact fully-qualified match first, then trailing
simple-name match against any known class; on multiple candidates the
first node id wins; unresolved imports yield `none`. -/
def resolveImport (records : List FileRecord) (imp : String) : Option Nat :=
  match records.enum.find?
      (fun p => p.2.classNames.any (fun c => fqn p.2 c == imp)) with
  | some p => some p.1
  | none =>
    match records.enum.find?
        (fun p => p.2.classNames.any (fun c => c == simpleName imp)) with
    | some p => some p.1
    | none => none

/-- Modelled from the spec: one edge per resolved import to a different
file, before de-duplication; unresolved imports and self-edges are
silently dropped. -/
def rawEdges (records : List FileRecord) : List GraphEdge :=
  records.enum.flatMap (fun p =>
    p.2.imports.filterMap (fun imp =>
      match resolveImport records imp with
      | some j =>
        if nodeIdOf j ≠ nodeIdOf p.1
          then some { «from» := nodeIdOf p.1, «to» := nodeIdOf j }
          else none
      | none => none))

/-- The forward reachability closure of `s` over the edge collection
(the descendants of `s`), via the same BFS loop. -/
def fwdClosure (edges : List GraphEdge) (s : String) : List String :=
  (bfsRun (fwdAdj edges) (edges.length + 1)
    { visited := [s], queue := [s], dequeued := [] }).visited

/-- Modelled from the spec: cycle membership — `x` lies on a cycle iff
some other node is both reachable from `x` and reaches `x` back
(a strongly connected component of size greater than one). -/
def inCycleFlag (edges : List GraphEdge) (ids : List String) (x : String) : Bool :=
  ids.any (fun m =>
    m != x && decide (m ∈ fwdClosure edges x) && decide (x ∈ fwdClosure edges m))

/-- Modelled from the spec: the graph builder — stable ids in input
order, edges from resolved imports de-duplicated per ordered pair, and
SCC-based cycle marking. -/
def buildGraph (records : List FileRecord) : FullGraph :=
  let edges := (rawEdges records).dedup
  let ids := (List.range records.length).map nodeIdOf
  { nodes := records.enum.map (fun p =>
      { id := nodeIdOf p.1, filePath := p.2.filePath,
        inCycle := inCycleFlag edges ids (nodeIdOf p.1) })
    edges := edges }

/-- Fan-in of a node: count of edges pointing to it. -/
def fanInCount (edges : List GraphEdge) (nid : String) : Nat :=
  (edges.filter (fun e => e.«to» == nid)).length

/-- Fan-out of a node: count of edges leaving it. -/
def fanOutCount (edges : List GraphEdge) (nid : String) : Nat :=
  (edges.filter (fun e => e.«from» == nid)).length

/-- The three-tier classification bucket. -/
inductive Classification where
  | GREEN
  | YELLOW
  | RED
  deriving DecidableEq

/-- Blast radius of a node: reachable-dependent count, total node count,
and the rounded percentage. -/
structure BlastRadius where
  affectedNodes : Nat
  totalNodes : Nat
  percentage : ℚ
  deriving DecidableEq

/-- Rounding to two decimal places. -/
def round2 (q : ℚ) : ℚ := (round (q * 100) : ℚ) / 100

/-- Modelled from the spec: blast radius of node `nid` — the nodes that
transitively depend on it (reverse-reachability traversal from `nid`,
here including `nid` itself), the total node count, and
`affected / total * 100` rounded to two decimals (`0` when the graph is
empty). -/
def blastRadiusOf (g : FullGraph) (nid : String) : BlastRadius :=
  let affected := (g.nodes.filter (fun m => decide (m.id ∈ fanInNodes g nid))).length
  let total := g.nodes.length
  { affectedNodes := affected
    totalNodes := total
    percentage :=
      if total = 0 then 0 else round2 ((affected : ℚ) / (total : ℚ) * 100) }

/-- Modelled from the spec: the 0–100 risk score — a weighted sum of
coupling, cycle membership, size and risky-construct penalties, clamped
to 100.  The spec fixes the shape but not the weights; the weights here
are representative. -/
def riskScoreOf (g : FullGraph) (r : FileRecord) (n : GraphNode) : ℚ :=
  min 100
    ((fanInCount g.edges n.id : ℚ) * 4 + (fanOutCount g.edges n.id : ℚ) * 3 +
      (if n.inCycle then 30 else 0) +
      (r.lineCount : ℚ) / 20 + (r.methodCount : ℚ) +
      (if r.usesThreading then 10 else 0) +
      (if r.usesReflection then 10 else 0) +
      (if r.readsFromDb then 5 else 0) +
      (if r.writesToDb then 5 else 0) +
      (if r.hasInheritance then 5 else 0))

/-- Modelled from the spec: the 0–100 convertibility score — an
independent weighted combination rewarding simplicity, clamped to 0.
Representative weights, independent of the risk weight vector. -/
def convertibilityScoreOf (g : FullGraph) (r : FileRecord) (n : GraphNode) : ℚ :=
  max 0
    (100 - (fanOutCount g.edges n.id : ℚ) * 5 -
      (if r.usesReflection then 20 else 0) -
      (if r.usesThreading then 20 else 0) -
      (if r.hasInheritance then 10 else 0) -
      (r.lineCount : ℚ) / 20)

/-- Modelled from the spec: the classification policy, evaluated in
precedence order with the first match winning. -/
def classify (inCycle : Bool) (riskScore : ℚ) (blastPct : ℚ) : Classification :=
  if inCycle = true ∨ 60 ≤ riskScore ∨ 50 ≤ blastPct then Classification.RED
  else if 30 ≤ riskScore ∨ 20 ≤ blastPct then Classification.YELLOW
  else Classification.GREEN

/-- One analysis entry per node. -/
structure AnalysisEntry where
  nodeId : String
  filePath : String
  riskScore : ℚ
  convertibilityScore : ℚ
  blastRadius : BlastRadius
  classification : Classification
  deriving DecidableEq

/-- Modelled from the spec: the risk scorer — one `AnalysisEntry` per
node of the built graph, recomputed wholesale. -/
def analyzeGraph (records : List FileRecord) : List AnalysisEntry :=
  let g := buildGraph records
  (g.nodes.zip records).map (fun p =>
    let br := blastRadiusOf g p.1.id
    let risk := riskScoreOf g p.2 p.1
    { nodeId := p.1.id
      filePath := p.1.filePath
      riskScore := risk
      convertibilityScore := convertibilityScoreOf g p.2 p.1
      blastRadius := br
      classification := classify p.1.inCycle risk br.percentage })

/-- The full pipeline: graph construction followed by risk analysis. -/
def runPipeline (records : List FileRecord) : FullGraph × List AnalysisEntry :=
  (buildGraph records, analyzeGraph records)

/-- Fixture: four files `A, B, C, D` (in package `p`) where `A` imports
`B`, `B` imports `C`, `C` imports `A`, and `D` is isolated — a 3-node
cycle `file_0 → file_1 → file_2 → file_0` plus the isolated `file_3`. -/
def cycleRecords : List FileRecord :=
  [ { filePath := "A.java", packageName := "p", imports := ["p.B"],
      classNames := ["A"], lineCount := 10, methodCount := 1,
      readsFromDb := false, writesToDb := false, hasInheritance := false,
      usesReflection := false, usesThreading := false, usesGenerics := false },
    { filePath := "B.java", packageName := "p", imports := ["p.C"],
      classNames := ["B"], lineCount := 10, methodCount := 1,
      readsFromDb := false, writesToDb := false, hasInheritance := false,
      usesReflection := false, usesThreading := false, usesGenerics := false },
    { filePath := "C.java", packageName := "p", imports := ["p.A"],
      classNames := ["C"], lineCount := 10, methodCount := 1,
      readsFromDb := false, writesToDb := false, hasInheritance := false,
      usesReflection := false, usesThreading := false, usesGenerics := false },
    { filePath := "D.java", packageName := "p", imports := [],
      classNames := ["D"], lineCount := 10, methodCount := 1,
      readsFromDb := false, writesToDb := false, hasInheritance := false,
      usesReflection := false, usesThreading := false, usesGenerics := false } ]

/-! ### BFS lemmas -/

/-- Decreasing measure of the BFS loop, relative to a universe `U` that
contains every id the adjacency function can produce. -/
def bfsMeasure (U : List String) (s : BfsState) : Nat :=
  (U.filter (fun u => decide (u ∉ s.visited))).length + s.queue.length

/-- The invariant of the BFS loop from target `t`:
everything visited is reverse-reachable, the queue and the dequeue trace
are made of visited ids, every visited id is either fully expanded or
still pending in the queue, and no id is ever dequeued twice. -/
def BfsInv (adj : String → List String) (t : String) (s : BfsState) : Prop :=
  (∀ x ∈ s.visited, Reach adj t x) ∧
  (∀ x ∈ s.queue, x ∈ s.visited) ∧
  (∀ x ∈ s.visited, (∀ d ∈ adj x, d ∈ s.visited) ∨ x ∈ s.queue) ∧
  t ∈ s.visited ∧
  (s.dequeued ++ s.queue).Nodup ∧
  (∀ x ∈ s.dequeued, x ∈ s.visited)

theorem enqueueDeps_spec (deps : List String) :
    ∀ v q : List String,
      v ⊆ (enqueueDeps deps (v, q)).1 ∧
      q ⊆ (enqueueDeps deps (v, q)).2 ∧
      (∀ x ∈ (enqueueDeps deps (v, q)).1, x ∈ v ∨ x ∈ deps) ∧
      (∀ d ∈ deps, d ∈ (enqueueDeps deps (v, q)).1) ∧
      (∀ x ∈ (enqueueDeps deps (v, q)).2, x ∈ q ∨ x ∈ (enqueueDeps deps (v, q)).1) ∧
      (∀ x ∈ (enqueueDeps deps (v, q)).1, x ∈ v ∨ x ∈ (enqueueDeps deps (v, q)).2) := by
  induction deps with
  | nil =>
    intro v q
    simp only [enqueueDeps, List.foldl_nil]
    refine ⟨fun x hx => hx, fun x hx => hx, fun x hx => Or.inl hx,
      by simp, fun x hx => Or.inl hx, fun x hx => Or.inl hx⟩
  | cons d ds ih =>
    intro v q
    by_cases hd : d ∈ v
    · have hstep : enqueueDeps (d :: ds) (v, q) = enqueueDeps ds (v, q) := by
        simp [enqueueDeps, hd]
      rw [hstep]
      obtain ⟨h1, h2, h3, h4, h5, h6⟩ := ih v q
      refine ⟨h1, h2, ?_, ?_, h5, h6⟩
      · intro x hx
        rcases h3 x hx with hv | hds
        · exact Or.inl hv
        · exact Or.inr (List.mem_cons_of_mem d hds)
      · intro e he
        rcases List.mem_cons.mp he with rfl | hds
        · exact h1 hd
        · exact h4 e hds
    · have hstep : enqueueDeps (d :: ds) (v, q)
          = enqueueDeps ds (v ++ [d], q ++ [d]) := by
        simp [enqueueDeps, hd]
      rw [hstep]
      obtain ⟨h1, h2, h3, h4, h5, h6⟩ := ih (v ++ [d]) (q ++ [d])
      have hvsub : v ⊆ v ++ [d] := by
        intro x hx; exact List.mem_append_left _ hx
      have hqsub : q ⊆ q ++ [d] := by
        intro x hx; exact List.mem_append_left _ hx
      have hdv : d ∈ (enqueueDeps ds (v ++ [d], q ++ [d])).1 :=
        h1 (by simp)
      have hdq : d ∈ (enqueueDeps ds (v ++ [d], q ++ [d])).2 :=
        h2 (by simp)
      refine ⟨fun x hx => h1 (hvsub hx), fun x hx => h2 (hqsub hx), ?_, ?_, ?_, ?_⟩
      · intro x hx
        rcases h3 x hx with hvd | hds
        · rcases List.mem_append.mp hvd with hv | hx1
          · exact Or.inl hv
          · exact Or.inr (by simp at hx1; simp [hx1])
        · exact Or.inr (List.mem_cons_of_mem d hds)
      · intro e he
        rcases List.mem_cons.mp he with rfl | hds
        · exact hdv
        · exact h4 e hds
      · intro x hx
        rcases h5 x hx with hqd | hrec
        · rcases List.mem_append.mp hqd with hq | hx1
          · exact Or.inl hq
          · simp at hx1
            subst hx1
            exact Or.inr hdv
        · exact Or.inr hrec
      · intro x hx
        rcases h6 x hx with hvd | hrec
        · rcases List.mem_append.mp hvd with hv | hx1
          · exact Or.inl hv
          · simp at hx1
            subst hx1
            exact Or.inr hdq
        · exact Or.inr hrec

theorem enqueueDeps_nodup (A : List String) (deps : List String) :
    ∀ v q : List String, (A ++ q).Nodup → (∀ x ∈ A ++ q, x ∈ v) →
      (A ++ (enqueueDeps deps (v, q)).2).Nodup ∧
      (∀ x ∈ A ++ (enqueueDeps deps (v, q)).2, x ∈ (enqueueDeps deps (v, q)).1) := by
  induction deps with
  | nil =>
    intro v q hnd hmem
    exact ⟨by simpa [enqueueDeps] using hnd,
      by simpa only [enqueueDeps, List.foldl_nil] using hmem⟩
  | cons d ds ih =>
    intro v q hnd hmem
    by_cases hd : d ∈ v
    · have hstep : enqueueDeps (d :: ds) (v, q) = enqueueDeps ds (v, q) := by
        simp [enqueueDeps, hd]
      rw [hstep]
      exact ih v q hnd hmem
    · have hstep : enqueueDeps (d :: ds) (v, q)
          = enqueueDeps ds (v ++ [d], q ++ [d]) := by
        simp [enqueueDeps, hd]
      rw [hstep]
      have hnd' : (A ++ (q ++ [d])).Nodup := by
        rw [show A ++ (q ++ [d]) = (A ++ q) ++ [d] by simp]
        refine List.Nodup.append hnd (List.nodup_singleton d) ?_
        intro x hx hx1
        simp at hx1
        subst hx1
        exact hd (hmem x hx)
      have hmem' : ∀ x ∈ A ++ (q ++ [d]), x ∈ v ++ [d] := by
        intro x hx
        rw [show A ++ (q ++ [d]) = (A ++ q) ++ [d] by simp] at hx
        rcases List.mem_append.mp hx with hx' | hx'
        · exact List.mem_append_left _ (hmem x hx')
        · exact List.mem_append_right _ hx'
      exact ih (v ++ [d]) (q ++ [d]) hnd' hmem'

theorem filter_not_mem_append_length (U : List String) (v : List String)
    (d : String) (hdU : d ∈ U) (hdv : d ∉ v) :
    (U.filter (fun u => decide (u ∉ v ++ [d]))).length + 1 ≤
      (U.filter (fun u => decide (u ∉ v))).length := by
  have hsplit : U.filter (fun u => decide (u ∉ v ++ [d]))
      = (U.filter (fun u => decide (u ∉ v))).filter (fun u => decide (u ≠ d)) := by
    rw [List.filter_filter]
    apply List.filter_congr
    intro x _
    by_cases hxv : x ∈ v <;> by_cases hxd : x = d <;>
      simp [hxv, hxd]
  rw [hsplit]
  have hmem : d ∈ U.filter (fun u => decide (u ∉ v)) := by
    rw [List.mem_filter]
    exact ⟨hdU, by simp [hdv]⟩
  have hlt : ((U.filter (fun u => decide (u ∉ v))).filter
      (fun u => decide (u ≠ d))).length <
      (U.filter (fun u => decide (u ∉ v))).length := by
    rw [List.length_filter_lt_length_iff_exists]
    exact ⟨d, hmem, by simp⟩
  omega

theorem enqueueDeps_measure (U : List String) (deps : List String) :
    ∀ v q : List String, (∀ d ∈ deps, d ∈ U) →
      (U.filter (fun u => decide (u ∉ (enqueueDeps deps (v, q)).1))).length +
        (enqueueDeps deps (v, q)).2.length ≤
      (U.filter (fun u => decide (u ∉ v))).length + q.length := by
  induction deps with
  | nil =>
    intro v q _
    simp [enqueueDeps]
  | cons d ds ih =>
    intro v q hU
    have hdU : d ∈ U := hU d (by simp)
    have hdsU : ∀ e ∈ ds, e ∈ U := fun e he => hU e (List.mem_cons_of_mem d he)
    by_cases hd : d ∈ v
    · have hstep : enqueueDeps (d :: ds) (v, q) = enqueueDeps ds (v, q) := by
        simp [enqueueDeps, hd]
      rw [hstep]
      exact ih v q hdsU
    · have hstep : enqueueDeps (d :: ds) (v, q)
          = enqueueDeps ds (v ++ [d], q ++ [d]) := by
        simp [enqueueDeps, hd]
      rw [hstep]
      have h1 := ih (v ++ [d]) (q ++ [d]) hdsU
      have h2 := filter_not_mem_append_length U v d hdU hd
      simp only [List.length_append, List.length_singleton] at h1 ⊢
      omega

theorem bfsStep_inv {adj : String → List String} {t : String} {s : BfsState}
    (h : BfsInv adj t s) : BfsInv adj t (bfsStep adj s) := by
  obtain ⟨hsound, hqv, hclosed, ht, hnd, hdv⟩ := h
  match hq : s.queue with
  | [] => simpa [bfsStep, hq] using ⟨hsound, hqv, hclosed, ht, hnd, hdv⟩
  | cur :: rest =>
    rw [hq] at hqv hclosed hnd
    have hcurv : cur ∈ s.visited := hqv cur (by simp)
    have hrestv : ∀ x ∈ rest, x ∈ s.visited :=
      fun x hx => hqv x (List.mem_cons_of_mem cur hx)
    obtain ⟨e1, e2, e3, e4, e5, e6⟩ := enqueueDeps_spec (adj cur) s.visited rest
    have hndA : ((s.dequeued ++ [cur]) ++ rest).Nodup := by
      rw [show (s.dequeued ++ [cur]) ++ rest = s.dequeued ++ cur :: rest by simp]
      exact hnd
    have hmemA : ∀ x ∈ (s.dequeued ++ [cur]) ++ rest, x ∈ s.visited := by
      intro x hx
      rcases List.mem_append.mp hx with hx' | hx'
      · rcases List.mem_append.mp hx' with hx'' | hx''
        · exact hdv x hx''
        · simp at hx''
          subst hx''
          exact hcurv
      · exact hrestv x hx'
    obtain ⟨n1, n2⟩ := enqueueDeps_nodup (s.dequeued ++ [cur]) (adj cur)
      s.visited rest hndA hmemA
    simp only [bfsStep, hq]
    refine ⟨?_, ?_, ?_, ?_, ?_, ?_⟩
    · intro x hx
      rcases e3 x hx with hv | hadj
      · exact hsound x hv
      · exact Reach.step (hsound cur hcurv) hadj
    · intro x hx
      exact n2 x (List.mem_append_right _ hx)
    · intro x hx
      rcases e6 x hx with hv | hq2
      · rcases hclosed x hv with hall | hcons
        · exact Or.inl fun d hd => e1 (hall d hd)
        · rcases List.mem_cons.mp hcons with rfl | hrest
          · exact Or.inl fun d hd => e4 d hd
          · exact Or.inr (e2 hrest)
      · exact Or.inr hq2
    · exact e1 ht
    · rw [show s.dequeued ++ [cur] ++ (enqueueDeps (adj cur) (s.visited, rest)).2
        = (s.dequeued ++ [cur]) ++ (enqueueDeps (adj cur) (s.visited, rest)).2 by simp]
      exact n1
    · intro x hx
      rcases List.mem_append.mp hx with hx' | hx'
      · exact e1 (hdv x hx')
      · simp at hx'
        subst hx'
        exact e1 hcurv

theorem bfsStep_measure {adj : String → List String} {U : List String}
    (hadj : ∀ x, ∀ d ∈ adj x, d ∈ U) (s : BfsState) (h : s.queue ≠ []) :
    bfsMeasure U (bfsStep adj s) < bfsMeasure U s := by
  match hq : s.queue with
  | [] => exact absurd hq h
  | cur :: rest =>
    have hmes := enqueueDeps_measure U (adj cur) s.visited rest (hadj cur)
    simp only [bfsMeasure, bfsStep, hq]
    simp only [List.length_cons]
    omega

theorem bfsRun_empty_queue {adj : String → List String} :
    ∀ (n : Nat) (s : BfsState), s.queue = [] → bfsRun adj n s = s := by
  intro n
  induction n with
  | zero => intro s _; rfl
  | succ m ih =>
    intro s hs
    have hstep : bfsStep adj s = s := by
      match hq : s.queue with
      | [] => simp [bfsStep, hq]
      | cur :: rest => rw [hq] at hs; cases hs
    simp [bfsRun, hstep, ih s hs]

theorem bfsRun_terminates {adj : String → List String} {U : List String}
    (hadj : ∀ x, ∀ d ∈ adj x, d ∈ U) :
    ∀ (n : Nat) (s : BfsState), bfsMeasure U s ≤ n →
      (bfsRun adj n s).queue = [] := by
  intro n
  induction n with
  | zero =>
    intro s hs
    simp only [bfsMeasure, Nat.le_zero] at hs
    have : s.queue.length = 0 := by omega
    simpa [bfsRun] using List.length_eq_zero.mp this
  | succ m ih =>
    intro s hs
    match hq : s.queue with
    | [] =>
      rw [bfsRun, bfsRun_empty_queue m (bfsStep adj s)
        (by simp [bfsStep, hq])]
      simp [bfsStep, hq]
    | cur :: rest =>
      have hlt := bfsStep_measure hadj s (by rw [hq]; simp)
      exact ih (bfsStep adj s) (by omega)

theorem bfsRun_inv {adj : String → List String} {t : String} :
    ∀ (n : Nat) (s : BfsState), BfsInv adj t s →
      BfsInv adj t (bfsRun adj n s) := by
  intro n
  induction n with
  | zero => intro s hs; exact hs
  | succ m ih => intro s hs; exact ih (bfsStep adj s) (bfsStep_inv hs)

theorem bfsInv_init (adj : String → List String) (t : String) :
    BfsInv adj t { visited := [t], queue := [t], dequeued := [] } := by
  refine ⟨?_, ?_, ?_, by simp, by simp, by simp⟩
  · intro x hx
    simp at hx
    subst hx
    exact Reach.refl
  · intro x hx; simpa using hx
  · intro x hx
    simp at hx
    subst hx
    exact Or.inr (by simp)

/-- Everything reverse-reachable belongs to any visited set that contains
the target and is closed under the adjacency function. -/
theorem reach_mem_closed {adj : String → List String} {t : String}
    {V : List String} (ht : t ∈ V)
    (hcl : ∀ x ∈ V, ∀ d ∈ adj x, d ∈ V) :
    ∀ x, Reach adj t x → x ∈ V := by
  intro x hx
  induction hx with
  | refl => exact ht
  | step hr hmem ih => exact hcl _ ih _ hmem

/-- Master characterization of the BFS closure: with enough fuel, the
visited set of the BFS from `t` is exactly the set of ids from which `t`
is reachable along the adjacency function. -/
theorem bfs_closure {adj : String → List String} {U : List String}
    (hadj : ∀ x, ∀ d ∈ adj x, d ∈ U) (t : String) {n : Nat}
    (hn : U.length + 1 ≤ n) :
    ∀ x, x ∈ (bfsRun adj n { visited := [t], queue := [t], dequeued := [] }).visited
      ↔ Reach adj t x := by
  have hmes : bfsMeasure U { visited := [t], queue := [t], dequeued := [] } ≤ n := by
    have hle : (U.filter (fun u => decide (u ∉ ([t] : List String)))).length
        ≤ U.length := List.length_filter_le _ _
    simp only [bfsMeasure, List.length_singleton]
    omega
  have hterm := bfsRun_terminates hadj n _ hmes
  have hinv := bfsRun_inv n _ (bfsInv_init adj t)
  obtain ⟨hsound, _, hclosed, ht, _, _⟩ := hinv
  intro x
  constructor
  · exact hsound x
  · refine reach_mem_closed ht ?_ x
    intro y hy d hd
    rcases hclosed y hy with hall | hqy
    · exact hall d hd
    · rw [hterm] at hqy
      cases hqy

/-- Every id produced by the reverse adjacency is a `from` endpoint. -/
theorem revAdj_sub (g : FullGraph) :
    ∀ c, ∀ d ∈ revAdj g c, d ∈ g.edges.map (fun e => e.«from») := by
  intro c d hd
  simp only [revAdj, List.mem_map, List.mem_filter] at hd
  obtain ⟨e, ⟨he, _⟩, rfl⟩ := hd
  exact List.mem_map.mpr ⟨e, he, rfl⟩

/-- The fan-in closure of the workflow page computes exactly reverse
reachability towards the target. -/
theorem mem_fanInNodes_iff (g : FullGraph) (t : String) (x : String) :
    x ∈ fanInNodes g t ↔ Reach (revAdj g) t x := by
  have hn : (g.edges.map (fun e => e.«from»)).length + 1 ≤ g.edges.length + 1 := by
    simp
  exact bfs_closure (revAdj_sub g) t hn x

/-- The forward closure computes exactly forward reachability from `t`. -/
theorem mem_fwdClosure_iff (edges : List GraphEdge) (t : String) (x : String) :
    x ∈ fwdClosure edges t ↔ Reach (fwdAdj edges) t x := by
  have hadj : ∀ c, ∀ d ∈ fwdAdj edges c, d ∈ edges.map (fun e => e.«to») := by
    intro c d hd
    simp only [fwdAdj, List.mem_map, List.mem_filter] at hd
    obtain ⟨e, ⟨he, _⟩, rfl⟩ := hd
    exact List.mem_map.mpr ⟨e, he, rfl⟩
  have hn : (edges.map (fun e => e.«to»)).length + 1 ≤ edges.length + 1 := by
    simp
  exact bfs_closure hadj t hn x

/-! ### Claim theorems: the workflow query -/

/-- Claim C1: for a target node id present in the graph, the workflow
(fan-in closure) query returns exactly the target node plus every node
from which the target is reachable by following edges in reverse (every
node that transitively depends on the target), with the edge set
restricted to edges whose endpoints both lie in that closure; on the
4-node diamond (B→A, C→A, D→B, D→C) the workflow for `A` contains
exactly the nodes A, B, C, D. -/
theorem workflow_fanin_closure_correct (g : FullGraph) (t : String)
    (ht : t ∈ g.nodes.map (fun n => n.id)) :
    (∀ n : GraphNode, n ∈ (workflowGraph g t).nodes ↔
      n ∈ g.nodes ∧ Reach (revAdj g) t n.id) ∧
    (∃ n ∈ (workflowGraph g t).nodes, n.id = t) ∧
    (∀ e : GraphEdge, e ∈ (workflowGraph g t).edges ↔
      e ∈ g.edges ∧ Reach (revAdj g) t e.«from» ∧ Reach (revAdj g) t e.«to») ∧
    (workflowGraph diamond ("A")).nodes.map (fun n => n.id) = ["A", "B", "C", "D"] := by
  have hnode : ∀ n : GraphNode, n ∈ (workflowGraph g t).nodes ↔
      n ∈ g.nodes ∧ Reach (revAdj g) t n.id := by
    intro n
    simp only [workflowGraph, List.mem_filter, decide_eq_true_eq, mem_fanInNodes_iff]
  refine ⟨hnode, ?_, ?_, by decide⟩
  · obtain ⟨n, hn, hid⟩ := List.mem_map.mp ht
    exact ⟨n, (hnode n).mpr ⟨hn, by rw [hid]; exact Reach.refl⟩, hid⟩
  · intro e
    simp only [workflowGraph, List.mem_filter, Bool.and_eq_true, decide_eq_true_eq,
      mem_fanInNodes_iff, and_assoc]

/-- Witness for C1 at the diamond fixture with target `A`. -/
theorem workflow_fanin_closure_correct_witness :
    ("A" ∈ diamond.nodes.map (fun n => n.id)) ∧
    (workflowGraph diamond ("A")).nodes.map (fun n => n.id) = ["A", "B", "C", "D"] :=
  ⟨by decide, (workflow_fanin_closure_correct diamond ("A") (by decide)).2.2.2⟩

/-- Claim C10: for every graph and target, the workflow BFS terminates —
after `edges.length + 1` iterations of the loop body the queue is empty
(so the `while` loop has exited), and the trace of dequeued ids has no
duplicate: visited-before-enqueue makes every node be dequeued at most
once, on every finite graph including cyclic ones. -/
theorem workflow_bfs_terminates (g : FullGraph) (t : String) :
    (bfsRun (revAdj g) (g.edges.length + 1)
      { visited := [t], queue := [t], dequeued := [] }).queue = [] ∧
    (bfsRun (revAdj g) (g.edges.length + 1)
      { visited := [t], queue := [t], dequeued := [] }).dequeued.Nodup := by
  have hmes : bfsMeasure (g.edges.map (fun e => e.«from»))
      { visited := [t], queue := [t], dequeued := [] } ≤ g.edges.length + 1 := by
    have hle : ((g.edges.map (fun e => e.«from»)).filter
        (fun u => decide (u ∉ ([t] : List String)))).length
        ≤ (g.edges.map (fun e => e.«from»)).length := List.length_filter_le _ _
    simp only [bfsMeasure, List.length_singleton, List.length_map] at hle ⊢
    omega
  have hterm := bfsRun_terminates (revAdj_sub g) (g.edges.length + 1) _ hmes
  obtain ⟨_, _, _, _, hnd, _⟩ :=
    bfsRun_inv (g.edges.length + 1) _ (bfsInv_init (revAdj g) t)
  refine ⟨hterm, ?_⟩
  rw [hterm] at hnd
  simpa using hnd

/-- Counterexample for C3: for the diamond graph and the nonexistent
target id `E`, the workflow query does not fail — it returns the empty
graph as an ordinary success value. -/
theorem workflow_missing_id_cex :
    ("E" ∉ diamond.nodes.map (fun n => n.id)) ∧
    workflowGraph diamond ("E") = { nodes := [], edges := [] } := by
  decide

/-- Claim C3 (amended): for a target id that is not the id of any node of
a graph without dangling edges, the workflow query silently returns the
empty graph (no nodes, no edges) as a success result — the code has no
NotFound signal. -/
theorem workflow_missing_id_returns_empty (g : FullGraph) (t : String)
    (hnode : ∀ n ∈ g.nodes, n.id ≠ t)
    (hdangling : ∀ e ∈ g.edges, ∃ n ∈ g.nodes, e.«to» = n.id) :
    workflowGraph g t = { nodes := [], edges := [] } := by
  have hreach : ∀ x, Reach (revAdj g) t x → x = t := by
    intro x hx
    induction hx with
    | refl => rfl
    | step hr hmem ih =>
      exfalso
      subst ih
      simp only [revAdj, List.mem_map, List.mem_filter] at hmem
      obtain ⟨e, ⟨he, hto⟩, _⟩ := hmem
      rw [beq_iff_eq] at hto
      obtain ⟨n, hn, hid⟩ := hdangling e he
      exact hnode n hn (by rw [← hid]; exact hto)
  have hmem : ∀ x, x ∈ fanInNodes g t → x = t :=
    fun x hx => hreach x ((mem_fanInNodes_iff g t x).mp hx)
  have h1 : g.nodes.filter (fun n => decide (n.id ∈ fanInNodes g t)) = [] := by
    rw [List.filter_eq_nil_iff]
    intro n hn
    simp only [decide_eq_true_eq]
    intro hin
    exact hnode n hn (hmem _ hin)
  have h2 : g.edges.filter (fun e =>
      decide (e.«from» ∈ fanInNodes g t) && decide (e.«to» ∈ fanInNodes g t)) = [] := by
    rw [List.filter_eq_nil_iff]
    intro e he
    simp only [Bool.and_eq_true, decide_eq_true_eq, not_and]
    intro _ hin
    obtain ⟨n, hn, hid⟩ := hdangling e he
    exact hnode n hn (by rw [← hid]; exact hmem _ hin)
  simp only [workflowGraph, h1, h2]

/-- Witness for the amended C3 at the diamond fixture with target `E`. -/
theorem workflow_missing_id_returns_empty_witness :
    workflowGraph diamond ("E") = { nodes := [], edges := [] } :=
  workflow_missing_id_returns_empty diamond ("E") (by decide) (by decide)

/-! ### Claim theorems: rendering and scoring -/

/-- Claim C9: in the graph rendering component, every node whose id has
no analysis entry, or whose entry has no classification field, is
assigned the default classification GREEN. -/
theorem render_default_green (g : FullGraph)
    (analysis : String → Option AnalysisDisplay) :
    ∀ p ∈ renderNodes g analysis,
      (analysis p.1).bind (fun a => a.classification) = none → p.2 = "GREEN" := by
  intro p hp hmiss
  simp only [renderNodes, List.mem_map] at hp
  obtain ⟨n, _, rfl⟩ := hp
  simp only [displayClassification]
  cases ha : analysis n.id with
  | none => simp
  | some a =>
    cases hc : a.classification with
    | none => simp [hc]
    | some c =>
      rw [ha] at hmiss
      simp [hc] at hmiss

/-- Witness for C9: a node of the diamond graph under an empty analysis
map renders GREEN. -/
theorem render_default_green_witness :
    (("A", "GREEN") ∈ renderNodes diamond (fun _ => none)) ∧
    (((fun _ => (none : Option AnalysisDisplay)) "A").bind
      (fun a => a.classification) = none) ∧
    ("A", "GREEN").2 = "GREEN" :=
  ⟨by decide, rfl,
    render_default_green diamond (fun _ => none) ("A", "GREEN") (by decide) rfl⟩

/-- Claim C2: classification is decided in precedence order with the
first match winning — RED on cycle membership or `riskScore ≥ 60` or
`blast ≥ 50`, else YELLOW on `riskScore ≥ 30` or `blast ≥ 20`, else
GREEN; a node in a cycle is RED regardless of its scores, and the exact
boundary values trigger their tier. -/
theorem classify_precedence_thresholds :
    (∀ (c : Bool) (r b : ℚ),
      (classify c r b = Classification.RED ↔ (c = true ∨ 60 ≤ r ∨ 50 ≤ b)) ∧
      (classify c r b = Classification.YELLOW ↔
        ¬(c = true ∨ 60 ≤ r ∨ 50 ≤ b) ∧ (30 ≤ r ∨ 20 ≤ b)) ∧
      (classify c r b = Classification.GREEN ↔
        ¬(c = true ∨ 60 ≤ r ∨ 50 ≤ b) ∧ ¬(30 ≤ r ∨ 20 ≤ b))) ∧
    classify true 5 0 = Classification.RED ∧
    classify false 60 0 = Classification.RED ∧
    classify false 0 50 = Classification.RED ∧
    classify false 30 0 = Classification.YELLOW ∧
    classify false 0 20 = Classification.YELLOW ∧
    classify false 29 19 = Classification.GREEN := by
  constructor
  · intro c r b
    unfold classify
    by_cases h1 : c = true ∨ 60 ≤ r ∨ 50 ≤ b <;>
      by_cases h2 : 30 ≤ r ∨ 20 ≤ b <;>
        simp [h1, h2]
  · refine ⟨?_, ?_, ?_, ?_, ?_, ?_⟩ <;> norm_num [classify]

/-- Claim C4: the blast radius of node `n` counts the nodes reachable
from `n` over the reversed edges (the fan-in closure computes exactly
reverse reachability), `totalNodes` is the graph's node count, and the
percentage is `affected / total * 100` rounded to two decimals, `0` on
an empty graph. -/
theorem blastRadius_correct (g : FullGraph) (nid : String) :
    (∀ x, x ∈ fanInNodes g nid ↔ Reach (revAdj g) nid x) ∧
    (blastRadiusOf g nid).affectedNodes =
      (g.nodes.filter (fun m => decide (m.id ∈ fanInNodes g nid))).length ∧
    (blastRadiusOf g nid).totalNodes = g.nodes.length ∧
    (blastRadiusOf g nid).percentage =
      (if g.nodes.length = 0 then 0
        else round2 (((blastRadiusOf g nid).affectedNodes : ℚ) /
          (g.nodes.length : ℚ) * 100)) :=
  ⟨mem_fanInNodes_iff g nid, rfl, rfl, rfl⟩

/-- Claim C7: the pipeline is a deterministic function of the record
collection — two independent runs produce the same node ids, the same
edge list in the same order, and the same analysis entries (scores and
classifications). -/
theorem pipeline_deterministic (records : List FileRecord)
    (out1 out2 : FullGraph × List AnalysisEntry)
    (h1 : out1 = runPipeline records) (h2 : out2 = runPipeline records) :
    out1.1.nodes.map (fun n => n.id) = out2.1.nodes.map (fun n => n.id) ∧
    out1.1.edges = out2.1.edges ∧
    out1.2 = out2.2 := by
  subst h1
  subst h2
  exact ⟨rfl, rfl, rfl⟩

/-- Witness for C7 at the cycle fixture. -/
theorem pipeline_deterministic_witness :
    (runPipeline cycleRecords).1.nodes.map (fun n => n.id) =
      (runPipeline cycleRecords).1.nodes.map (fun n => n.id) ∧
    (runPipeline cycleRecords).1.edges = (runPipeline cycleRecords).1.edges ∧
    (runPipeline cycleRecords).2 = (runPipeline cycleRecords).2 :=
  pipeline_deterministic cycleRecords _ _ rfl rfl

/-- Claim C8: the pipeline on an empty record collection succeeds and
produces the empty graph and the empty analysis map. -/
theorem empty_input_empty_output :
    buildGraph [] = { nodes := [], edges := [] } ∧ analyzeGraph [] = [] :=
  ⟨rfl, rfl⟩

/-! ### Claim theorems: graph builder -/

/-- The ids of the built graph's nodes are `file_0 … file_(len-1)` in
input order. -/
theorem buildGraph_node_ids (records : List FileRecord) :
    (buildGraph records).nodes.map (fun n => n.id) =
      (List.range records.length).map nodeIdOf := by
  have h1 : (buildGraph records).nodes.map (fun n => n.id)
      = records.enum.map (fun p => nodeIdOf p.1) := by
    simp [buildGraph]
  have h2 : records.enum.map (fun p => nodeIdOf p.1)
      = (records.enum.map Prod.fst).map nodeIdOf := by
    rw [List.map_map]
    rfl
  rw [h1, h2, List.enum_map_fst]

/-- A resolved import always points at a valid record index. -/
theorem resolveImport_lt {records : List FileRecord} {imp : String} {j : Nat}
    (h : resolveImport records imp = some j) : j < records.length := by
  unfold resolveImport at h
  cases h1 : records.enum.find?
      (fun p => p.2.classNames.any (fun c => fqn p.2 c == imp)) with
  | some p =>
    rw [h1] at h
    injection h with heq
    subst heq
    have hp := List.mem_of_find?_eq_some h1
    obtain ⟨hlt, _⟩ := List.getElem?_eq_some_iff.mp (List.mem_enum_iff_getElem?.mp hp)
    exact hlt
  | none =>
    rw [h1] at h
    cases h2 : records.enum.find?
        (fun p => p.2.classNames.any (fun c => c == simpleName imp)) with
    | some p =>
      rw [h2] at h
      injection h with heq
      subst heq
      have hp := List.mem_of_find?_eq_some h2
      obtain ⟨hlt, _⟩ := List.getElem?_eq_some_iff.mp (List.mem_enum_iff_getElem?.mp hp)
      exact hlt
    | none =>
      rw [h2] at h
      cases h

/-- Characterization of the raw (pre-dedup) edge list: each edge comes
from a resolved import of some record, pointing at a different node. -/
theorem mem_rawEdges {records : List FileRecord} {e : GraphEdge} :
    e ∈ rawEdges records ↔ ∃ i r imp j, records[i]? = some r ∧
      imp ∈ r.imports ∧ resolveImport records imp = some j ∧
      nodeIdOf j ≠ nodeIdOf i ∧
      e = { «from» := nodeIdOf i, «to» := nodeIdOf j } := by
  unfold rawEdges
  rw [List.mem_flatMap]
  constructor
  · rintro ⟨p, hp, he⟩
    rw [List.mem_filterMap] at he
    obtain ⟨imp, himp, hres⟩ := he
    cases hr : resolveImport records imp with
    | none =>
      rw [hr] at hres
      cases hres
    | some j =>
      rw [hr] at hres
      dsimp only at hres
      by_cases hne : nodeIdOf j ≠ nodeIdOf p.1
      · rw [if_pos hne] at hres
        injection hres with hres
        exact ⟨p.1, p.2, imp, j, List.mem_enum_iff_getElem?.mp hp, himp, hr, hne,
          hres.symm⟩
      · rw [if_neg hne] at hres
        cases hres
  · rintro ⟨i, r, imp, j, hget, himp, hres, hne, rfl⟩
    refine ⟨(i, r), List.mem_enum_iff_getElem?.mpr hget, ?_⟩
    rw [List.mem_filterMap]
    refine ⟨imp, himp, ?_⟩
    rw [hres]
    dsimp only
    rw [if_pos hne]

/-- Claim C6: graph-builder invariants — every edge endpoint is a node id
(no dangling edges), no edge is a self-edge, the edge list is
de-duplicated per ordered pair, and every edge originates from an import
that resolves to a known record (unresolved imports contribute no
edge). -/
theorem buildGraph_edge_invariants (records : List FileRecord) :
    (∀ e ∈ (buildGraph records).edges,
        e.«from» ∈ (buildGraph records).nodes.map (fun n => n.id) ∧
        e.«to» ∈ (buildGraph records).nodes.map (fun n => n.id)) ∧
    (∀ e ∈ (buildGraph records).edges, e.«from» ≠ e.«to») ∧
    (buildGraph records).edges.Nodup ∧
    (∀ e ∈ (buildGraph records).edges, ∃ i r imp j,
        records[i]? = some r ∧ imp ∈ r.imports ∧
        resolveImport records imp = some j ∧
        e = { «from» := nodeIdOf i, «to» := nodeIdOf j }) := by
  have hedges : (buildGraph records).edges = (rawEdges records).dedup := by
    simp [buildGraph]
  have horigin : ∀ e ∈ (buildGraph records).edges, ∃ i r imp j,
      records[i]? = some r ∧ imp ∈ r.imports ∧
      resolveImport records imp = some j ∧ nodeIdOf j ≠ nodeIdOf i ∧
      e = { «from» := nodeIdOf i, «to» := nodeIdOf j } := by
    intro e he
    rw [hedges, List.mem_dedup] at he
    exact mem_rawEdges.mp he
  refine ⟨?_, ?_, ?_, ?_⟩
  · intro e he
    obtain ⟨i, r, imp, j, hget, _, hres, _, rfl⟩ := horigin e he
    rw [buildGraph_node_ids]
    obtain ⟨hi, _⟩ := List.getElem?_eq_some_iff.mp hget
    exact ⟨List.mem_map.mpr ⟨i, List.mem_range.mpr hi, rfl⟩,
      List.mem_map.mpr ⟨j, List.mem_range.mpr (resolveImport_lt hres), rfl⟩⟩
  · intro e he
    obtain ⟨i, r, imp, j, _, _, _, hne, rfl⟩ := horigin e he
    exact Ne.symm hne
  · rw [hedges]
    exact List.nodup_dedup _
  · intro e he
    obtain ⟨i, r, imp, j, hget, himp, hres, _, rfl⟩ := horigin e he
    exact ⟨i, r, imp, j, hget, himp, hres, rfl⟩

/-- Claim C5: a node of the built graph has `inCycle = true` iff it
belongs to a strongly connected component of size greater than one
(some other node is reachable from it and reaches it back); on the
fixture with the 3-cycle `file_0 → file_1 → file_2 → file_0` (files
A→B→C→A) and the isolated `file_3` (file D), exactly the first three
nodes are marked. -/
theorem inCycle_iff_scc (records : List FileRecord) :
    (∀ n ∈ (buildGraph records).nodes,
      n.inCycle = true ↔
        ∃ m ∈ (buildGraph records).nodes, m.id ≠ n.id ∧
          Reach (fwdAdj (buildGraph records).edges) n.id m.id ∧
          Reach (fwdAdj (buildGraph records).edges) m.id n.id) ∧
    (buildGraph cycleRecords).nodes.map (fun n => (n.id, n.inCycle)) =
      [("file_0", true), ("file_1", true), ("file_2", true), ("file_3", false)] := by
  refine ⟨?_, by decide⟩
  intro n hn
  have hedges : (buildGraph records).edges = (rawEdges records).dedup := by
    simp [buildGraph]
  have hids : (buildGraph records).nodes.map (fun m => m.id) =
      (List.range records.length).map nodeIdOf := buildGraph_node_ids records
  have hmemid : ∀ x : String,
      x ∈ (List.range records.length).map nodeIdOf ↔
        ∃ m ∈ (buildGraph records).nodes, m.id = x := by
    intro x
    rw [← hids, List.mem_map]
  have hn' : n ∈ records.enum.map (fun p =>
      ({ id := nodeIdOf p.1, filePath := p.2.filePath,
         inCycle := inCycleFlag ((rawEdges records).dedup)
           ((List.range records.length).map nodeIdOf) (nodeIdOf p.1) } :
        GraphNode)) := by
    simpa [buildGraph] using hn
  obtain ⟨p, hp, rfl⟩ := List.mem_map.mp hn'
  simp only [inCycleFlag, List.any_eq_true, Bool.and_eq_true, bne_iff_ne,
    decide_eq_true_eq, mem_fwdClosure_iff, ← hedges]
  constructor
  · rintro ⟨mid, hmid, ⟨hne, hfwd⟩, hback⟩
    obtain ⟨m, hm, rfl⟩ := (hmemid mid).mp hmid
    exact ⟨m, hm, hne, hfwd, hback⟩
  · rintro ⟨m, hm, hne, hfwd, hback⟩
    exact ⟨m.id, (hmemid m.id).mpr ⟨m, hm, rfl⟩, ⟨hne, hfwd⟩, hback⟩

end ShadowCode
